import Mathlib

/-!
Verification of the kernel-function core of the `kernelmethods` repository
(`kernelmethods/numeric_kernels.py`): a shallow embedding of the five kernel
variants (Polynomial, Gaussian, Laplacian, Sigmoid, Linear), the module-level
registry `DEFINED_KERNEL_FUNCS`, and the validation/numeric-safety helpers
from `kernelmethods.utils` (modelled from the specification, since that file
is not part of the snapshot).  Sample vectors are embedded as `Fin d → ℝ`
(python float64 arithmetic is idealised as real arithmetic); the raw-input
side of `__call__` is embedded as an `Except`-valued function on a sum type
of possible caller inputs.
-/

/-- Machine epsilon of IEEE-754 double precision, the value of
`numpy.finfo(float).eps` used by the numeric-safety helper. -/
noncomputable def eps : ℝ := 1 / 2 ^ 52

/-- Modelled from the spec: `kernelmethods.utils._ensure_min_eps` is not in the
repository snapshot; section 4.3 of the spec defines the numeric-safety guard
as `FloorEpsilon(value) = max(value, machine_epsilon)`. -/
noncomputable def _ensure_min_eps (value : ℝ) : ℝ := max value eps

/-- The dot product `x.dot(y.T)` of two equal-length numeric 1-D arrays. -/
def dot {d : ℕ} (x y : Fin d → ℝ) : ℝ := ∑ l, x l * y l

/-- State of a `PolyKernel` instance after `__init__`. -/
structure PolyKernel where
  degree : ℕ
  b : ℝ
  skip_input_checks : Bool

/-- `PolyKernel.__init__`: stores `degree`, `b` and the flag unchanged
(python defaults: `degree=2, b=0, skip_input_checks=False`). -/
def PolyKernel.init (degree : ℕ) (b : ℝ) (skip_input_checks : Bool) : PolyKernel :=
  ⟨degree, b, skip_input_checks⟩

/-- `PolyKernel.__call__` on validated numeric vectors:
`(self.b + x.dot(y.T)) ** self.degree`. -/
def PolyKernel.call (k : PolyKernel) {d : ℕ} (x y : Fin d → ℝ) : ℝ :=
  (k.b + dot x y) ^ k.degree

/-- State of a `GaussianKernel` instance after `__init__`. -/
structure GaussianKernel where
  sigma : ℝ
  gamma : ℝ
  skip_input_checks : Bool

/-- `GaussianKernel.__init__`: `self.sigma = _ensure_min_eps(sigma)` and
`self.gamma = _ensure_min_eps(1.0/(2*self.sigma**2))`
(python default: `sigma=2.0`). -/
noncomputable def GaussianKernel.init (sigma : ℝ) (skip_input_checks : Bool) : GaussianKernel :=
  let s := _ensure_min_eps sigma
  ⟨s, _ensure_min_eps (1 / (2 * s ^ 2)), skip_input_checks⟩

/-- `GaussianKernel.__call__` on validated numeric vectors:
`np.exp(-self.gamma * np.linalg.norm(x - y, ord=2)**2)`, where the squared
euclidean norm of `x - y` is the sum of squared coordinate differences. -/
noncomputable def GaussianKernel.call (k : GaussianKernel) {d : ℕ} (x y : Fin d → ℝ) : ℝ :=
  Real.exp (-k.gamma * ∑ l, (x l - y l) ^ 2)

/-- Name tag set by `GaussianKernel.__init__` through the base class. -/
def GaussianKernel.name (_ : GaussianKernel) : String := "gaussian"

/-- `GaussianKernel.__str__`, which renders the stored `self.sigma` as
`gaussian(sigma=...)`; the decimal rendering of a float is abstracted as a
function `fmt`. -/
noncomputable def GaussianKernel.str (fmt : ℝ → String) (k : GaussianKernel) : String :=
  k.name ++ "(sigma=" ++ fmt k.sigma ++ ")"

/-- State of a `LaplacianKernel` instance after `__init__`. -/
structure LaplacianKernel where
  gamma : ℝ
  skip_input_checks : Bool

/-- `LaplacianKernel.__init__`: stores `self.gamma = gamma` unchanged, with no
epsilon flooring (python default: `gamma=1.0`). -/
def LaplacianKernel.init (gamma : ℝ) (skip_input_checks : Bool) : LaplacianKernel :=
  ⟨gamma, skip_input_checks⟩

/-- `LaplacianKernel.__call__` on validated numeric vectors:
`np.exp(-self.gamma * np.sum(np.abs(x - y)))`. -/
noncomputable def LaplacianKernel.call (k : LaplacianKernel) {d : ℕ} (x y : Fin d → ℝ) : ℝ :=
  Real.exp (-k.gamma * ∑ l, |x l - y l|)

/-- State of a `SigmoidKernel` instance after `__init__`. -/
structure SigmoidKernel where
  gamma : ℝ
  offset : ℝ
  skip_input_checks : Bool

/-- `SigmoidKernel.__init__`: stores `gamma` and `offset` unchanged
(python defaults: `gamma=1.0, offset=1.0`). -/
def SigmoidKernel.init (gamma offset : ℝ) (skip_input_checks : Bool) : SigmoidKernel :=
  ⟨gamma, offset, skip_input_checks⟩

/-- `SigmoidKernel.__call__` on validated numeric vectors:
`np.tanh(self.offset + (self.gamma * np.dot(x, y)))`. -/
noncomputable def SigmoidKernel.call (k : SigmoidKernel) {d : ℕ} (x y : Fin d → ℝ) : ℝ :=
  Real.tanh (k.offset + k.gamma * dot x y)

/-- State of a `LinearKernel` instance after `__init__`. -/
structure LinearKernel where
  skip_input_checks : Bool

/-- `LinearKernel.__init__`: stores the flag only. -/
def LinearKernel.init (skip_input_checks : Bool) : LinearKernel :=
  ⟨skip_input_checks⟩

/-- `LinearKernel.__call__` on validated numeric vectors: `x.dot(y.T)`. -/
def LinearKernel.call (_k : LinearKernel) {d : ℕ} (x y : Fin d → ℝ) : ℝ :=
  dot x y

/-- The closed set of kernel-function variants defined by the module. -/
inductive KernelFunc where
  | poly (k : PolyKernel)
  | gaussian (k : GaussianKernel)
  | laplacian (k : LaplacianKernel)
  | linear (k : LinearKernel)
  | sigmoid (k : SigmoidKernel)

/-- Name tag each variant passes to `BaseKernelFunction.__init__`. -/
def KernelFunc.name : KernelFunc → String
  | .poly _ => "polynomial"
  | .gaussian _ => "gaussian"
  | .laplacian _ => "laplacian"
  | .linear _ => "linear"
  | .sigmoid _ => "sigmoid"

/-- The module-level registry
`DEFINED_KERNEL_FUNCS = (PolyKernel(), GaussianKernel(), LaplacianKernel(),
LinearKernel(), SigmoidKernel())`: a constant tuple of default-constructed
instances, built once when the module loads; as a Lean constant it is
immutable by construction. -/
noncomputable def DEFINED_KERNEL_FUNCS : List KernelFunc :=
  [KernelFunc.poly (PolyKernel.init 2 0 false),
   KernelFunc.gaussian (GaussianKernel.init 2 false),
   KernelFunc.laplacian (LaplacianKernel.init 1 false),
   KernelFunc.linear (LinearKernel.init false),
   KernelFunc.sigmoid (SigmoidKernel.init 1 1 false)]

/-- Raw caller-supplied inputs to `__call__`, before validation: a numeric
array, or one of the non-numeric shapes the test suite exercises (a string
literal, a tuple of booleans, a sequence of generic objects). -/
inductive RawInput where
  | numeric (v : List ℝ)
  | text (s : String)
  | boolSeq (bs : List Bool)
  | objSeq (count : ℕ)

/-- Validation error raised by input checking; it carries both offending
inputs, as the spec requires the message to name both. -/
inductive ValidationError where
  | non_numeric (x y : RawInput)
  | shape_mismatch (x y : RawInput)

/-- Modelled from the spec: `kernelmethods.utils.check_input_arrays` is not in
the repository snapshot; section 4.2 of the spec defines `ValidatePair` as
confirming both inputs are numeric (rejecting strings, boolean sequences and
generic-object sequences) and shape-compatible, raising a validation error
naming both inputs otherwise. -/
def check_input_arrays : RawInput → RawInput → Except ValidationError (List ℝ × List ℝ)
  | .numeric a, .numeric c =>
      if a.length = c.length then .ok (a, c)
      else .error (.shape_mismatch (.numeric a) (.numeric c))
  | x, y => .error (.non_numeric x y)

/-- Dot product of two validated numeric arrays in list form. -/
def listDot (a c : List ℝ) : ℝ := (List.zipWith (fun p q => p * q) a c).sum

/-- The arithmetic part of each variant of `__call__`, on validated numeric
arrays in list form. -/
noncomputable def KernelFunc.formula : KernelFunc → List ℝ → List ℝ → ℝ
  | .poly k, a, c => (k.b + listDot a c) ^ k.degree
  | .gaussian k, a, c => Real.exp (-k.gamma * (List.zipWith (fun p q => (p - q) ^ 2) a c).sum)
  | .laplacian k, a, c => Real.exp (-k.gamma * (List.zipWith (fun p q => |p - q|) a c).sum)
  | .linear _, a, c => listDot a c
  | .sigmoid k, a, c => Real.tanh (k.offset + k.gamma * listDot a c)

/-- `__call__` on raw inputs with `skip_input_checks` false: first
`check_input_arrays`, then the arithmetic formula; the validation error
propagates untouched, so no arithmetic happens on invalid input. -/
noncomputable def KernelFunc.callRaw (k : KernelFunc) (x y : RawInput) :
    Except ValidationError ℝ :=
  (check_input_arrays x y).map (fun p => k.formula p.1 p.2)

/-- Whether a raw input is a numeric array. -/
def RawInput.numericQ : RawInput → Bool
  | .numeric _ => true
  | _ => false

/-- The N-by-N Gram matrix of a kernel evaluation over a finite sample set,
as assembled by the external Gram-matrix collaborator: entry (i, j) is the
kernel evaluated on samples i and j. -/
def gramMatrix {N d : ℕ} (f : (Fin d → ℝ) → (Fin d → ℝ) → ℝ)
    (X : Fin N → Fin d → ℝ) : Matrix (Fin N) (Fin N) ℝ :=
  Matrix.of fun i j => f (X i) (X j)

/-- The real quadratic form of a square matrix, used to phrase positive
semidefiniteness concretely. -/
def quadForm {N : ℕ} (M : Matrix (Fin N) (Fin N) ℝ) (v : Fin N → ℝ) : ℝ :=
  ∑ i, ∑ j, v i * M i j * v j

/-! ### Basic helper lemmas -/

theorem eps_pos : 0 < eps := by
  unfold eps; positivity

theorem ensure_min_eps_pos (x : ℝ) : 0 < _ensure_min_eps x :=
  lt_of_lt_of_le eps_pos (le_max_right x eps)

theorem dot_comm {d : ℕ} (x y : Fin d → ℝ) : dot x y = dot y x :=
  Finset.sum_congr rfl fun l _ => mul_comm (x l) (y l)

theorem sum_sq_sub_comm {d : ℕ} (x y : Fin d → ℝ) :
    ∑ l, (x l - y l) ^ 2 = ∑ l, (y l - x l) ^ 2 :=
  Finset.sum_congr rfl fun l _ => by ring

theorem sum_abs_sub_comm {d : ℕ} (x y : Fin d → ℝ) :
    ∑ l, |x l - y l| = ∑ l, |y l - x l| :=
  Finset.sum_congr rfl fun l _ => abs_sub_comm (x l) (y l)

theorem sum_sq_sub_nonneg {d : ℕ} (x y : Fin d → ℝ) :
    0 ≤ ∑ l, (x l - y l) ^ 2 :=
  Finset.sum_nonneg fun l _ => sq_nonneg (x l - y l)

/-! ### Claim C2: symmetry of every variant -/

/-- C2: for every kernel variant (Linear, Polynomial, Gaussian, Laplacian,
Sigmoid), with any constructor parameters (hence for every reachable
instance), and for every pair of equal-length real vectors x and y,
evaluating on (x, y) equals evaluating on (y, x). -/
theorem C2_symmetry {d : ℕ} (x y : Fin d → ℝ) (kp : PolyKernel)
    (kg : GaussianKernel) (kl : LaplacianKernel) (kli : LinearKernel)
    (ks : SigmoidKernel) :
    kli.call x y = kli.call y x ∧
    kp.call x y = kp.call y x ∧
    kg.call x y = kg.call y x ∧
    kl.call x y = kl.call y x ∧
    ks.call x y = ks.call y x := by
  refine ⟨?_, ?_, ?_, ?_, ?_⟩
  · unfold LinearKernel.call
    rw [dot_comm]
  · unfold PolyKernel.call
    rw [dot_comm]
  · unfold GaussianKernel.call
    rw [sum_sq_sub_comm]
  · unfold LaplacianKernel.call
    rw [sum_abs_sub_comm]
  · unfold SigmoidKernel.call
    rw [dot_comm]

/-! ### Claim C5: Polynomial(degree=1, b=0) coincides with Linear -/

/-- C5: for every pair of equal-length real vectors x and y, PolyKernel
constructed with degree=1 and b=0 evaluated on (x, y) returns exactly the
same value as LinearKernel evaluated on (x, y). -/
theorem C5_poly_degenerate_linear {d : ℕ} (x y : Fin d → ℝ) (s1 s2 : Bool) :
    (PolyKernel.init 1 0 s1).call x y = (LinearKernel.init s2).call x y := by
  simp [PolyKernel.call, LinearKernel.call, PolyKernel.init, LinearKernel.init]

/-! ### Claim C3: which stored scale parameters are floored -/

/-- C3 counterexample: constructing LaplacianKernel with gamma = 0 stores
gamma exactly zero, so it is not the case that every configured scale
parameter is floored to a strictly positive value after construction. -/
theorem C3_counterexample :
    (LaplacianKernel.init 0 false).gamma = 0 ∧
    ¬ (0 < (LaplacianKernel.init 0 false).gamma) := by
  unfold LaplacianKernel.init
  norm_num

/-- C3 amended: only the Gaussian parameters (sigma and the derived scale
gamma, which appear in a denominator) are floored to at least machine
epsilon, hence strictly positive after construction for every configured
value; LaplacianKernel stores its configured gamma unchanged, so a zero
scale stays exactly zero. -/
theorem C3_amended_flooring (sigma gamma : ℝ) (s1 s2 : Bool) :
    0 < (GaussianKernel.init sigma s1).sigma ∧
    0 < (GaussianKernel.init sigma s1).gamma ∧
    (LaplacianKernel.init gamma s2).gamma = gamma :=
  ⟨ensure_min_eps_pos sigma, ensure_min_eps_pos _, rfl⟩

/-! ### Claim C4: Gaussian with sigma = 0 is numerically safe -/

/-- C4: constructing GaussianKernel with sigma = 0 yields a stored sigma that
is strictly positive, a denominator 2*sigma^2 that is nonzero (so the
derived scale raises no division error), a derived gamma that is strictly
positive, and an evaluation that is a well-defined (strictly positive) real
on every pair of equal-length real vectors. -/
theorem C4_gaussian_sigma_zero_safe :
    0 < (GaussianKernel.init 0 false).sigma ∧
    2 * (GaussianKernel.init 0 false).sigma ^ 2 ≠ 0 ∧
    0 < (GaussianKernel.init 0 false).gamma ∧
    ∀ (d : ℕ) (x y : Fin d → ℝ), 0 < (GaussianKernel.init 0 false).call x y := by
  have hs : 0 < (GaussianKernel.init 0 false).sigma := ensure_min_eps_pos 0
  refine ⟨hs, ?_, ensure_min_eps_pos _, fun d x y => Real.exp_pos _⟩
  positivity

/-! ### Claim C9: range of the Gaussian evaluation -/

/-- C9: for every configured sigma (including zero and negative values) and
every pair of equal-length real vectors x and y, the Gaussian evaluation
lies in (0, 1], and equals 1 exactly when x = y, because the stored gamma is
strictly positive after epsilon flooring. -/
theorem C9_gaussian_range (sigma : ℝ) (s : Bool) {d : ℕ} (x y : Fin d → ℝ) :
    0 < (GaussianKernel.init sigma s).call x y ∧
    (GaussianKernel.init sigma s).call x y ≤ 1 ∧
    ((GaussianKernel.init sigma s).call x y = 1 ↔ x = y) := by
  have hγ : 0 < (GaussianKernel.init sigma s).gamma := ensure_min_eps_pos _
  have hD : 0 ≤ ∑ l, (x l - y l) ^ 2 := sum_sq_sub_nonneg x y
  unfold GaussianKernel.call
  refine ⟨Real.exp_pos _, ?_, ?_⟩
  · rw [Real.exp_le_one_iff]
    have := mul_nonneg hγ.le hD
    linarith
  · rw [Real.exp_eq_one_iff, neg_mul, neg_eq_zero, mul_eq_zero]
    constructor
    · rintro (h | h)
      · exact absurd h hγ.ne'
      · have hall := (Finset.sum_eq_zero_iff_of_nonneg
          (fun l _ => sq_nonneg (x l - y l))).mp h
        funext l
        have := hall l (Finset.mem_univ l)
        have hxy : x l - y l = 0 := by
          exact pow_eq_zero_iff (n := 2) (by norm_num) |>.mp this
        linarith
    · rintro rfl
      exact Or.inr (by simp)

/-! ### Claim C10: the Gaussian string representation reports the floored sigma -/

/-- C10: the string produced by GaussianKernel.__str__ embeds the stored,
epsilon-floored sigma: for any configured sigma below machine epsilon the
reported value is eps, and for sigma at or above eps it is the configured
value. -/
theorem C10_str_reports_floored_sigma (fmt : ℝ → String) (sigma : ℝ) (s : Bool) :
    (sigma < eps →
      GaussianKernel.str fmt (GaussianKernel.init sigma s) =
        "gaussian(sigma=" ++ fmt eps ++ ")") ∧
    (eps ≤ sigma →
      GaussianKernel.str fmt (GaussianKernel.init sigma s) =
        "gaussian(sigma=" ++ fmt sigma ++ ")") := by
  have h1 : GaussianKernel.str fmt (GaussianKernel.init sigma s) =
      "gaussian" ++ "(sigma=" ++ fmt (max sigma eps) ++ ")" := rfl
  constructor
  · intro h
    rw [h1, max_eq_right h.le]
    congr 1
  · intro h
    rw [h1, max_eq_left h]
    congr 1

/-- C10 witness at the concrete input sigma = 0 with a concrete rendering
function. -/
theorem C10_witness :
    (0:ℝ) < eps ∧
    GaussianKernel.str (fun _ => "v") (GaussianKernel.init 0 false) =
      "gaussian(sigma=" ++ (fun _ : ℝ => "v") eps ++ ")" :=
  ⟨eps_pos, (C10_str_reports_floored_sigma (fun _ => "v") 0 false).1 eps_pos⟩

/-! ### Claim C8: the module-level registry -/

/-- C8: the registry DEFINED_KERNEL_FUNCS is a fixed ordered sequence of
exactly five entries, one default-constructed instance of each variant, in
the order Polynomial, Gaussian, Laplacian, Linear, Sigmoid; the default
Gaussian instance resolves to the floored sigma = 2 and derived gamma = 1/8.
As a Lean constant the registry is immutable, matching the never-mutated
module-level tuple. -/
theorem C8_registry :
    DEFINED_KERNEL_FUNCS.length = 5 ∧
    DEFINED_KERNEL_FUNCS.map KernelFunc.name =
      ["polynomial", "gaussian", "laplacian", "linear", "sigmoid"] ∧
    DEFINED_KERNEL_FUNCS =
      [KernelFunc.poly ⟨2, 0, false⟩,
       KernelFunc.gaussian ⟨2, 1/8, false⟩,
       KernelFunc.laplacian ⟨1, false⟩,
       KernelFunc.linear ⟨false⟩,
       KernelFunc.sigmoid ⟨1, 1, false⟩] := by
  have heps8 : eps ≤ 1/8 := by unfold eps; norm_num
  have heps2 : eps ≤ 2 := by unfold eps; norm_num
  refine ⟨rfl, rfl, ?_⟩
  unfold DEFINED_KERNEL_FUNCS PolyKernel.init GaussianKernel.init
    LaplacianKernel.init LinearKernel.init SigmoidKernel.init _ensure_min_eps
  rw [max_eq_left heps2]
  norm_num
  exact heps8

/-! ### Claim C6: validation rejects non-numeric inputs before arithmetic -/

/-- C6: for every kernel variant evaluated with input checks enabled, a call
on a non-numeric input (string literal, boolean tuple, or generic-object
sequence) returns the validation error, and that error is exactly the one
produced by check_input_arrays, so it is raised before any kernel
arithmetic; moreover every call either fully succeeds with a scalar or
fails with a validation error. -/
theorem C6_validation (k : KernelFunc) (x y : RawInput) :
    ((x.numericQ = false ∨ y.numericQ = false) →
      ∃ e, k.callRaw x y = .error e ∧ check_input_arrays x y = .error e) ∧
    ((∃ r, k.callRaw x y = .ok r) ∨ ∃ e, k.callRaw x y = .error e) := by
  constructor
  · intro h
    have hchk : ∃ e, check_input_arrays x y = .error e := by
      cases x <;> cases y <;>
        simp [check_input_arrays, RawInput.numericQ] at h ⊢
    obtain ⟨e, he⟩ := hchk
    exact ⟨e, by simp [KernelFunc.callRaw, he, Except.map], he⟩
  · cases hc : check_input_arrays x y with
    | ok p => exact Or.inl ⟨k.formula p.1 p.2, by simp [KernelFunc.callRaw, hc, Except.map]⟩
    | error e => exact Or.inr ⟨e, by simp [KernelFunc.callRaw, hc, Except.map]⟩

/-- C6 witness: the Linear kernel called on the string literal input fails
with the validation error of check_input_arrays. -/
theorem C6_witness :
    ((RawInput.text "string").numericQ = false ∨
      (RawInput.text "string").numericQ = false) ∧
    ∃ e, (KernelFunc.linear (LinearKernel.init false)).callRaw
          (RawInput.text "string") (RawInput.text "string") = .error e ∧
        check_input_arrays (RawInput.text "string") (RawInput.text "string") =
          .error e :=
  ⟨Or.inl rfl,
   (C6_validation (KernelFunc.linear (LinearKernel.init false))
      (RawInput.text "string") (RawInput.text "string")).1 (Or.inl rfl)⟩

/-! ### Claim C7: concrete evaluations at x = [1,0], y = [0,1] -/

/-- C7: at x = [1,0] and y = [0,1], the Linear kernel evaluates to 0, the
Polynomial kernel with degree 2 and b = 1 evaluates to 1, the Gaussian
kernel with sigma = 1 evaluates to exp(-1), and the Laplacian kernel with
gamma = 1 evaluates to exp(-2). -/
theorem C7_concrete_values :
    (LinearKernel.init false).call ![(1:ℝ), 0] ![0, 1] = 0 ∧
    (PolyKernel.init 2 1 false).call ![(1:ℝ), 0] ![0, 1] = 1 ∧
    (GaussianKernel.init 1 false).call ![(1:ℝ), 0] ![0, 1] = Real.exp (-1) ∧
    (LaplacianKernel.init 1 false).call ![(1:ℝ), 0] ![0, 1] = Real.exp (-2) := by
  have heps1 : eps ≤ 1 := by unfold eps; norm_num
  have hepsh : eps ≤ 1/2 := by unfold eps; norm_num
  refine ⟨?_, ?_, ?_, ?_⟩
  · simp [LinearKernel.call, dot, Fin.sum_univ_two]
  · simp [PolyKernel.call, PolyKernel.init, dot, Fin.sum_univ_two]
  · have hγ : (GaussianKernel.init 1 false).gamma = 1/2 := by
      unfold GaussianKernel.init _ensure_min_eps
      rw [max_eq_left heps1]
      norm_num
      exact hepsh
    unfold GaussianKernel.call
    rw [hγ]
    norm_num [Fin.sum_univ_two]
  · unfold LaplacianKernel.call LaplacianKernel.init
    norm_num [Fin.sum_univ_two]

/-! ### Positive-semidefiniteness toolkit

The claims about Gram matrices are settled through `Matrix.PosSemidef`; the
lemmas below connect it to the concrete quadratic form and establish closure
under the constructions the kernel formulas use (feature-map Gram matrices,
entrywise products and powers, diagonal congruence, entrywise exponential,
min kernels). -/

theorem dotProduct_star_mulVec_eq_quadForm {N : ℕ} (M : Matrix (Fin N) (Fin N) ℝ)
    (v : Fin N → ℝ) : Matrix.dotProduct (star v) (M.mulVec v) = quadForm M v := by
  unfold quadForm
  simp only [Matrix.dotProduct, Matrix.mulVec, Pi.star_apply, star_trivial]
  refine Finset.sum_congr rfl fun i _ => ?_
  rw [Finset.mul_sum]
  refine Finset.sum_congr rfl fun j _ => ?_
  ring

theorem posSemidef_of_quad {N : ℕ} (M : Matrix (Fin N) (Fin N) ℝ)
    (hsym : ∀ i j, M i j = M j i)
    (hq : ∀ v : Fin N → ℝ, 0 ≤ quadForm M v) : M.PosSemidef := by
  constructor
  · ext i j
    rw [Matrix.conjTranspose_apply, star_trivial]
    exact hsym j i
  · intro v
    rw [dotProduct_star_mulVec_eq_quadForm]
    exact hq v

theorem quad_nonneg {N : ℕ} {M : Matrix (Fin N) (Fin N) ℝ} (hM : M.PosSemidef)
    (v : Fin N → ℝ) : 0 ≤ quadForm M v := by
  rw [← dotProduct_star_mulVec_eq_quadForm]
  exact hM.2 v

theorem entry_symm_of_posSemidef {N : ℕ} {M : Matrix (Fin N) (Fin N) ℝ}
    (h : M.PosSemidef) (i j : Fin N) : M i j = M j i := by
  have h1 := congrFun (congrFun h.1 j) i
  rw [Matrix.conjTranspose_apply, star_trivial] at h1
  exact h1

theorem gram_quadForm_eq {N : ℕ} {κ : Type} [Fintype κ] (φ : Fin N → κ → ℝ)
    (v : Fin N → ℝ) :
    quadForm (Matrix.of fun i j => ∑ l, φ i l * φ j l) v
      = ∑ l, (∑ i, v i * φ i l) ^ 2 := by
  unfold quadForm
  simp only [Matrix.of_apply]
  calc ∑ i, ∑ j, v i * (∑ l, φ i l * φ j l) * v j
      = ∑ i, ∑ j, ∑ l, (v i * φ i l) * (v j * φ j l) := by
        refine Finset.sum_congr rfl fun i _ => Finset.sum_congr rfl fun j _ => ?_
        rw [Finset.mul_sum, Finset.sum_mul]
        exact Finset.sum_congr rfl fun l _ => by ring
    _ = ∑ l, ∑ i, ∑ j, (v i * φ i l) * (v j * φ j l) := by
        rw [Finset.sum_congr rfl fun i (_ : i ∈ Finset.univ) =>
          (Finset.sum_comm (s := Finset.univ) (t := Finset.univ)
            (f := fun j l => (v i * φ i l) * (v j * φ j l))), Finset.sum_comm]
    _ = ∑ l, (∑ i, v i * φ i l) ^ 2 := by
        refine Finset.sum_congr rfl fun l _ => ?_
        rw [sq, Finset.sum_mul_sum]

theorem gram_posSemidef {N : ℕ} {κ : Type} [Fintype κ] (φ : Fin N → κ → ℝ) :
    (Matrix.of fun i j => ∑ l, φ i l * φ j l).PosSemidef := by
  refine posSemidef_of_quad _ (fun i j => ?_) (fun v => ?_)
  · simp only [Matrix.of_apply]
    exact Finset.sum_congr rfl fun l _ => mul_comm _ _
  · rw [gram_quadForm_eq]
    exact Finset.sum_nonneg fun l _ => sq_nonneg _

theorem posSemidef_entrywise_mul {N : ℕ} {A B : Matrix (Fin N) (Fin N) ℝ}
    (hA : A.PosSemidef) (hB : B.PosSemidef) :
    (Matrix.of fun i j => A i j * B i j).PosSemidef := by
  obtain ⟨C, hC⟩ := Matrix.posSemidef_iff_eq_transpose_mul_self.mp hB
  have hBij : ∀ i j, B i j = ∑ r, C r i * C r j := by
    intro i j
    rw [hC]
    simp [Matrix.mul_apply, Matrix.conjTranspose_apply]
  refine posSemidef_of_quad _ (fun i j => ?_) (fun v => ?_)
  · simp only [Matrix.of_apply]
    rw [entry_symm_of_posSemidef hA i j, entry_symm_of_posSemidef hB i j]
  · have expand : quadForm (Matrix.of fun i j => A i j * B i j) v
        = ∑ r, quadForm A (fun i => v i * C r i) := by
      unfold quadForm
      simp only [Matrix.of_apply]
      calc ∑ i, ∑ j, v i * (A i j * B i j) * v j
          = ∑ i, ∑ j, ∑ r, (v i * C r i) * A i j * (v j * C r j) := by
            refine Finset.sum_congr rfl fun i _ => Finset.sum_congr rfl fun j _ => ?_
            rw [hBij i j, Finset.mul_sum, Finset.mul_sum, Finset.sum_mul]
            exact Finset.sum_congr rfl fun r _ => by ring
        _ = ∑ r, ∑ i, ∑ j, (v i * C r i) * A i j * (v j * C r j) := by
            rw [Finset.sum_congr rfl fun i (_ : i ∈ Finset.univ) =>
              (Finset.sum_comm (s := Finset.univ) (t := Finset.univ)
                (f := fun j r => (v i * C r i) * A i j * (v j * C r j))),
              Finset.sum_comm]
        _ = ∑ r, quadForm A (fun i => v i * C r i) := rfl
    rw [expand]
    exact Finset.sum_nonneg fun r _ => quad_nonneg hA _

theorem posSemidef_const {N : ℕ} {b : ℝ} (hb : 0 ≤ b) :
    (Matrix.of fun _ _ : Fin N => b).PosSemidef := by
  refine posSemidef_of_quad _ (fun i j => rfl) (fun v => ?_)
  have h : quadForm (Matrix.of fun _ _ : Fin N => b) v = b * (∑ i, v i) ^ 2 := by
    unfold quadForm
    simp only [Matrix.of_apply]
    rw [sq, Finset.sum_mul_sum, Finset.mul_sum]
    refine Finset.sum_congr rfl fun i _ => ?_
    rw [Finset.mul_sum]
    exact Finset.sum_congr rfl fun j _ => by ring
  rw [h]
  exact mul_nonneg hb (sq_nonneg _)

theorem posSemidef_entrywise_pow {N : ℕ} {A : Matrix (Fin N) (Fin N) ℝ}
    (hA : A.PosSemidef) (k : ℕ) :
    (Matrix.of fun i j => A i j ^ k).PosSemidef := by
  induction k with
  | zero =>
    simp only [pow_zero]
    exact posSemidef_const zero_le_one
  | succ k ih =>
    have h := posSemidef_entrywise_mul hA ih
    simp only [Matrix.of_apply] at h
    simpa only [pow_succ, mul_comm (A _ _ ^ k)] using h

theorem posSemidef_scale {N : ℕ} {M : Matrix (Fin N) (Fin N) ℝ}
    (hM : M.PosSemidef) (c : Fin N → ℝ) :
    (Matrix.of fun i j => c i * M i j * c j).PosSemidef := by
  refine posSemidef_of_quad _ (fun i j => ?_) (fun v => ?_)
  · simp only [Matrix.of_apply]
    rw [entry_symm_of_posSemidef hM i j]
    ring
  · have h : quadForm (Matrix.of fun i j => c i * M i j * c j) v
        = quadForm M (fun i => v i * c i) := by
      unfold quadForm
      simp only [Matrix.of_apply]
      exact Finset.sum_congr rfl fun i _ => Finset.sum_congr rfl fun j _ => by ring
    rw [h]
    exact quad_nonneg hM _

theorem posSemidef_entrywise_finset_prod {N : ℕ} {κ : Type} (s : Finset κ)
    (F : κ → Matrix (Fin N) (Fin N) ℝ) (h : ∀ l ∈ s, (F l).PosSemidef) :
    (Matrix.of fun i j => ∏ l ∈ s, F l i j).PosSemidef := by
  induction s using Finset.cons_induction with
  | empty =>
    simp only [Finset.prod_empty]
    exact posSemidef_const zero_le_one
  | cons a s ha ih =>
    have hFa := h a (Finset.mem_cons_self a s)
    have hrest := ih fun l hl => h l (Finset.mem_cons_of_mem hl)
    have hmul := posSemidef_entrywise_mul hFa hrest
    simp only [Matrix.of_apply] at hmul
    simpa only [Finset.prod_cons] using hmul

theorem min_quadForm_nonneg_aux {ι : Type} [DecidableEq ι] (n : ℕ) :
    ∀ s : Finset ι, s.card ≤ n → ∀ b v : ι → ℝ, (∀ i ∈ s, 0 ≤ b i) →
      0 ≤ ∑ i ∈ s, ∑ j ∈ s, v i * min (b i) (b j) * v j := by
  induction n with
  | zero =>
    intro s hs b v _
    have hse : s = ∅ := Finset.card_eq_zero.mp (Nat.le_antisymm hs (Nat.zero_le _))
    subst hse
    simp
  | succ n ih =>
    intro s hs b v hb
    rcases Finset.eq_empty_or_nonempty s with rfl | hne
    · simp
    set m := s.inf' hne b with hm
    have hmle : ∀ i ∈ s, m ≤ b i := fun i hi => Finset.inf'_le b hi
    obtain ⟨a, ha, hma⟩ := Finset.exists_mem_eq_inf' hne b
    have hm0 : 0 ≤ m := by
      rw [hm, hma]
      exact hb a ha
    have hsplit : (∑ i ∈ s, ∑ j ∈ s, v i * min (b i) (b j) * v j)
        = m * (∑ i ∈ s, v i) ^ 2
          + ∑ i ∈ s, ∑ j ∈ s, v i * min (b i - m) (b j - m) * v j := by
      rw [sq, Finset.sum_mul_sum, Finset.mul_sum, ← Finset.sum_add_distrib]
      refine Finset.sum_congr rfl fun i hi => ?_
      rw [Finset.mul_sum, ← Finset.sum_add_distrib]
      refine Finset.sum_congr rfl fun j hj => ?_
      rw [min_sub_sub_right]
      ring
    set t := s.filter (fun i => b i ≠ m) with ht
    have hts : t ⊆ s := Finset.filter_subset _ _
    have hzero : ∀ j ∈ s, j ∉ t → b j - m = 0 := by
      intro j hj hjt
      have hbj : b j = m := by
        by_contra hne2
        exact hjt (Finset.mem_filter.mpr ⟨hj, hne2⟩)
      rw [hbj, sub_self]
    have hnn : ∀ i ∈ s, 0 ≤ b i - m := fun i hi => sub_nonneg.mpr (hmle i hi)
    have hrestrict : (∑ i ∈ s, ∑ j ∈ s, v i * min (b i - m) (b j - m) * v j)
        = ∑ i ∈ t, ∑ j ∈ t, v i * min (b i - m) (b j - m) * v j := by
      rw [← Finset.sum_subset hts (fun i hi hit => Finset.sum_eq_zero fun j hj => by
        rw [hzero i hi hit, min_eq_left (hnn j hj), mul_zero, zero_mul])]
      refine Finset.sum_congr rfl fun i hi => ?_
      rw [← Finset.sum_subset hts (fun j hj hjt => by
        rw [hzero j hj hjt, min_eq_right (hnn i (hts hi)), mul_zero, zero_mul])]
    have hat : a ∉ t := by
      rw [ht, Finset.mem_filter]
      push_neg
      intro _
      rw [hm]
      exact hma.symm
    have htcard : t.card ≤ n := by
      have h1 : t ⊆ s.erase a := fun i hit =>
        Finset.mem_erase.mpr ⟨fun hia => hat (hia ▸ hit), hts hit⟩
      have h2 := Finset.card_le_card h1
      have h3 : (s.erase a).card = s.card - 1 := Finset.card_erase_of_mem ha
      have h4 : 1 ≤ s.card := Finset.card_pos.mpr hne
      omega
    have hrec := ih t htcard (fun i => b i - m) v fun i hi => hnn i (hts hi)
    rw [hsplit, hrestrict]
    have hsq : 0 ≤ m * (∑ i ∈ s, v i) ^ 2 := mul_nonneg hm0 (sq_nonneg _)
    linarith

theorem posSemidef_min_matrix {N : ℕ} (b : Fin N → ℝ) (hb : ∀ i, 0 ≤ b i) :
    (Matrix.of fun i j => min (b i) (b j)).PosSemidef := by
  refine posSemidef_of_quad _ (fun i j => ?_) (fun v => ?_)
  · simp only [Matrix.of_apply]
    exact min_comm _ _
  · unfold quadForm
    simp only [Matrix.of_apply]
    exact min_quadForm_nonneg_aux N Finset.univ (le_of_eq (Finset.card_fin N)) b v
      fun i _ => hb i

theorem real_exp_eq_tsum (t : ℝ) :
    Real.exp t = tsum fun k : ℕ => t ^ k / (Nat.factorial k) := by
  rw [Real.exp_eq_exp_ℝ, NormedSpace.exp_eq_tsum_div]

theorem posSemidef_entrywise_exp {N : ℕ} {S : Matrix (Fin N) (Fin N) ℝ}
    (hS : S.PosSemidef) :
    (Matrix.of fun i j => Real.exp (S i j)).PosSemidef := by
  refine posSemidef_of_quad _ (fun i j => ?_) (fun v => ?_)
  · simp only [Matrix.of_apply, entry_symm_of_posSemidef hS i j]
  · have hsummable : ∀ i j : Fin N,
        Summable fun k : ℕ => v i * (S i j ^ k / (Nat.factorial k)) * v j :=
      fun i j => ((Real.summable_pow_div_factorial (S i j)).mul_left (v i)).mul_right (v j)
    have heq : quadForm (Matrix.of fun i j => Real.exp (S i j)) v
        = tsum fun k : ℕ => ((Nat.factorial k : ℝ))⁻¹
            * quadForm (Matrix.of fun i j => S i j ^ k) v := by
      unfold quadForm
      simp only [Matrix.of_apply]
      calc ∑ i, ∑ j, v i * Real.exp (S i j) * v j
          = ∑ i, ∑ j, tsum fun k : ℕ => v i * (S i j ^ k / (Nat.factorial k)) * v j := by
            refine Finset.sum_congr rfl fun i _ => Finset.sum_congr rfl fun j _ => ?_
            rw [real_exp_eq_tsum (S i j), ← tsum_mul_left, ← tsum_mul_right]
        _ = tsum (fun k : ℕ => ∑ i, ∑ j, v i * (S i j ^ k / (Nat.factorial k)) * v j) := by
            rw [Finset.sum_congr rfl fun i (_ : i ∈ Finset.univ) =>
              (tsum_sum fun j _ => hsummable i j).symm]
            exact (tsum_sum fun i _ => summable_sum fun j _ => hsummable i j).symm
        _ = tsum fun k : ℕ => ((Nat.factorial k : ℝ))⁻¹ * ∑ i, ∑ j, v i * S i j ^ k * v j := by
            refine tsum_congr fun k => ?_
            rw [Finset.mul_sum]
            refine Finset.sum_congr rfl fun i _ => ?_
            rw [Finset.mul_sum]
            refine Finset.sum_congr rfl fun j _ => ?_
            field_simp
    rw [heq]
    refine tsum_nonneg fun k => mul_nonneg (by positivity) ?_
    exact quad_nonneg (posSemidef_entrywise_pow hS k) v

theorem gaussian_matrix_psd {N d : ℕ} (γ : ℝ) (hγ : 0 ≤ γ) (X : Fin N → Fin d → ℝ) :
    (Matrix.of fun i j => Real.exp (-γ * ∑ l, (X i l - X j l) ^ 2)).PosSemidef := by
  have h2γ : Real.sqrt (2 * γ) * Real.sqrt (2 * γ) = 2 * γ :=
    Real.mul_self_sqrt (by linarith)
  have hmat : (Matrix.of fun i j => Real.exp (-γ * ∑ l, (X i l - X j l) ^ 2))
      = Matrix.of fun i j =>
          Real.exp (-γ * ∑ l, (X i l) ^ 2)
            * Real.exp (∑ l, (Real.sqrt (2 * γ) * X i l) * (Real.sqrt (2 * γ) * X j l))
            * Real.exp (-γ * ∑ l, (X j l) ^ 2) := by
    ext i j
    simp only [Matrix.of_apply]
    rw [← Real.exp_add, ← Real.exp_add]
    congr 1
    have hzz : ∑ l, (Real.sqrt (2 * γ) * X i l) * (Real.sqrt (2 * γ) * X j l)
        = 2 * γ * ∑ l, X i l * X j l := by
      rw [Finset.mul_sum]
      refine Finset.sum_congr rfl fun l _ => ?_
      calc (Real.sqrt (2 * γ) * X i l) * (Real.sqrt (2 * γ) * X j l)
          = (Real.sqrt (2 * γ) * Real.sqrt (2 * γ)) * (X i l * X j l) := by ring
        _ = 2 * γ * (X i l * X j l) := by rw [h2γ]
    have hexpand : ∑ l, (X i l - X j l) ^ 2
        = (∑ l, (X i l) ^ 2) + (∑ l, (X j l) ^ 2) - 2 * ∑ l, X i l * X j l := by
      rw [Finset.mul_sum, ← Finset.sum_add_distrib, ← Finset.sum_sub_distrib]
      refine Finset.sum_congr rfl fun l _ => by ring
    rw [hzz, hexpand]
    ring
  rw [hmat]
  have hgram := gram_posSemidef (fun i l => Real.sqrt (2 * γ) * X i l)
  have hexp := posSemidef_entrywise_exp hgram
  have hfinal := posSemidef_scale hexp (fun i => Real.exp (-γ * ∑ l, (X i l) ^ 2))
  exact hfinal

theorem laplacian_coord_psd {N : ℕ} (γ : ℝ) (hγ : 0 ≤ γ) (a : Fin N → ℝ) :
    (Matrix.of fun i j => Real.exp (-γ * |a i - a j|)).PosSemidef := by
  have hmono : Monotone fun t : ℝ => Real.exp (2 * γ * t) :=
    Real.exp_monotone.comp (monotone_mul_left_of_nonneg (by linarith))
  have hmat : (Matrix.of fun i j => Real.exp (-γ * |a i - a j|))
      = Matrix.of fun i j =>
          Real.exp (-γ * a i)
            * min (Real.exp (2 * γ * a i)) (Real.exp (2 * γ * a j))
            * Real.exp (-γ * a j) := by
    ext i j
    simp only [Matrix.of_apply]
    have habs : |a i - a j| = a i + a j - 2 * min (a i) (a j) := by
      rcases le_total (a i) (a j) with h | h
      · rw [min_eq_left h, abs_of_nonpos (by linarith)]
        ring
      · rw [min_eq_right h, abs_of_nonneg (by linarith)]
        ring
    have hminexp : Real.exp (2 * γ * min (a i) (a j))
        = min (Real.exp (2 * γ * a i)) (Real.exp (2 * γ * a j)) :=
      hmono.map_min
    rw [habs, show -γ * (a i + a j - 2 * min (a i) (a j))
        = (-γ * a i) + (2 * γ * min (a i) (a j)) + (-γ * a j) from by ring,
      Real.exp_add, Real.exp_add, hminexp]
  rw [hmat]
  have hminpsd := posSemidef_min_matrix (fun i => Real.exp (2 * γ * a i))
    fun i => (Real.exp_pos _).le
  exact posSemidef_scale hminpsd (fun i => Real.exp (-γ * a i))

theorem laplacian_matrix_psd {N d : ℕ} (γ : ℝ) (hγ : 0 ≤ γ) (X : Fin N → Fin d → ℝ) :
    (Matrix.of fun i j => Real.exp (-γ * ∑ l, |X i l - X j l|)).PosSemidef := by
  have hfactor : (Matrix.of fun i j => Real.exp (-γ * ∑ l, |X i l - X j l|))
      = Matrix.of fun i j => ∏ l, Real.exp (-γ * |X i l - X j l|) := by
    ext i j
    simp only [Matrix.of_apply]
    rw [Finset.mul_sum, Real.exp_sum]
  rw [hfactor]
  exact posSemidef_entrywise_finset_prod Finset.univ
    (fun l => Matrix.of fun i j => Real.exp (-γ * |X i l - X j l|))
    fun l _ => laplacian_coord_psd γ hγ (fun i => X i l)

theorem poly_matrix_psd {N d : ℕ} (degree : ℕ) (b : ℝ) (hb : 0 ≤ b)
    (X : Fin N → Fin d → ℝ) :
    (Matrix.of fun i j => (b + dot (X i) (X j)) ^ degree).PosSemidef := by
  have hbase : (Matrix.of fun i j => b + dot (X i) (X j)).PosSemidef := by
    have hsum := (posSemidef_const (N := N) hb).add (gram_posSemidef X)
    have hmat : (Matrix.of fun i j => b + dot (X i) (X j))
        = (Matrix.of fun _ _ : Fin N => b) + Matrix.of fun i j => ∑ l, X i l * X j l := by
      ext i j
      simp [Matrix.add_apply, dot]
    rw [hmat]
    exact hsum
  have h := posSemidef_entrywise_pow hbase degree
  simpa only [Matrix.of_apply] using h

/-! ### Claim C1: PSD of the Gram matrices -/

/-- C1: for each of Linear, Polynomial with degree a positive integer and
intercept b at least 0, Gaussian with sigma strictly positive, and Laplacian
with gamma strictly positive, and for every finite set of equal-length real
sample vectors, the N-by-N Gram matrix with entry (i, j) the kernel
evaluated on samples i and j is positive semidefinite (a Hermitian matrix
with nonnegative quadratic form, equivalently all eigenvalues nonnegative). -/
theorem C1_gram_psd {N d : ℕ} (X : Fin N → Fin d → ℝ) (degree : ℕ)
    (b sigma gammaL : ℝ) (_hdeg : 1 ≤ degree) (hb : 0 ≤ b) (_hσ : 0 < sigma)
    (hγ : 0 < gammaL) (s1 s2 s3 s4 : Bool) :
    (gramMatrix ((LinearKernel.init s1).call) X).PosSemidef ∧
    (gramMatrix ((PolyKernel.init degree b s2).call) X).PosSemidef ∧
    (gramMatrix ((GaussianKernel.init sigma s3).call) X).PosSemidef ∧
    (gramMatrix ((LaplacianKernel.init gammaL s4).call) X).PosSemidef := by
  refine ⟨?_, ?_, ?_, ?_⟩
  · exact gram_posSemidef X
  · exact poly_matrix_psd degree b hb X
  · exact gaussian_matrix_psd ((GaussianKernel.init sigma s3).gamma)
      (ensure_min_eps_pos _).le X
  · exact laplacian_matrix_psd gammaL hγ.le X

/-- C1 witness: the Gram matrices of the four kernels over a concrete
one-sample set, with degree 1, b = 0, sigma = 1, gamma = 1. -/
theorem C1_witness :
    (gramMatrix ((LinearKernel.init false).call)
      (fun _ _ => (0:ℝ) : Fin 1 → Fin 1 → ℝ)).PosSemidef ∧
    (gramMatrix ((PolyKernel.init 1 0 false).call)
      (fun _ _ => (0:ℝ) : Fin 1 → Fin 1 → ℝ)).PosSemidef ∧
    (gramMatrix ((GaussianKernel.init 1 false).call)
      (fun _ _ => (0:ℝ) : Fin 1 → Fin 1 → ℝ)).PosSemidef ∧
    (gramMatrix ((LaplacianKernel.init 1 false).call)
      (fun _ _ => (0:ℝ) : Fin 1 → Fin 1 → ℝ)).PosSemidef :=
  C1_gram_psd (fun _ _ => (0:ℝ)) 1 0 1 1 (by decide) (by norm_num) (by norm_num)
    (by norm_num) false false false false
